import Mathlib

/-!
Shallow embedding of `pytorch3d/renderer/blending.py`: the three blending
operations `hard_rgb_blend`, `sigmoid_alpha_blend` and `softmax_rgb_blend`,
modelled over the real numbers.

Tensors of shape (N, H, W, K) become functions
`Fin N → Fin H → Fin W → Fin (K+1) → ℝ`: the last axis has `K+1` slots so
that it is always nonempty, as the source requires (the `k = 0` slot access
in `hard_rgb_blend`/`sigmoid_alpha_blend` and the `torch.max` reduction over
the K axis in `softmax_rgb_blend` both need at least one slot).

The per-pixel arithmetic of `softmax_rgb_blend` is split into one Lean
definition per intermediate tensor of the source (`prob_map`, `alpha`,
`z_inv`, `z_inv_max`, `delta`, `weights_num`, `denom`, `weights`,
`weighted_colors`, `weighted_background`), each a function of the values of
one pixel.  `torch.flip (pixel_colors, [1])` becomes indexing the row axis
through `Fin.rev`.
-/

namespace Blending

/-- `torch.sigmoid x`, which is `1 / (1 + exp (-x))`. -/
noncomputable def sigmoid (x : ℝ) : ℝ := 1 / (1 + Real.exp (-x))

/-- The boolean mask `fragments.pix_to_face >= 0` of the source, as the 0/1
real factor it becomes when multiplied into a float tensor. -/
def maskVal (i : ℤ) : ℝ := if 0 ≤ i then 1 else 0

/-- The rasterizer outputs consumed by the blending functions: per
(batch, row, col, slot) face index (`pix_to_face`), signed 2D distance
(`dists`) and interpolated depth (`zbuf`).  A parameter `K` here means
`K+1` slots in the last axis. -/
structure Fragments (N H W K : ℕ) where
  pix_to_face : Fin N → Fin H → Fin W → Fin (K+1) → ℤ
  dists : Fin N → Fin H → Fin W → Fin (K+1) → ℝ
  zbuf : Fin N → Fin H → Fin W → Fin (K+1) → ℝ

/-- Per-pixel colors of the top `K+1` faces: a tensor of shape (N,H,W,K,3). -/
abbrev Colors (N H W K : ℕ) := Fin N → Fin H → Fin W → Fin (K+1) → Fin 3 → ℝ

/-- An RGBA image of shape (N,H,W,4): channels 0,1,2 are R,G,B and channel 3
is alpha. -/
abbrev Image (N H W : ℕ) := Fin N → Fin H → Fin W → Fin 4 → ℝ

/-- `torch.clamp x 0 1.0`. -/
noncomputable def clamp01 (x : ℝ) : ℝ := min (max x 0) 1

/-- One pixel of `prob = torch.sigmoid (-fragments.dists / blend_params.sigma) * mask`
(line 74 and line 152 of the source). -/
noncomputable def prob_map {K : ℕ} (sigma : ℝ) (pix_to_face : Fin (K+1) → ℤ)
    (dists : Fin (K+1) → ℝ) (k : Fin (K+1)) : ℝ :=
  sigmoid (-dists k / sigma) * maskVal (pix_to_face k)

/-- One pixel of `alpha = 1.0 - torch.exp (torch.log (1.0 - prob) |>.sum dim)`
where the sum runs over the K axis (line 84 and line 162 of the source): the
log-domain probabilistic-OR aggregation shared by `sigmoid_alpha_blend` and
`softmax_rgb_blend`. -/
noncomputable def alpha {K : ℕ} (sigma : ℝ) (pix_to_face : Fin (K+1) → ℤ)
    (dists : Fin (K+1) → ℝ) : ℝ :=
  1 - Real.exp (∑ k, Real.log (1 - prob_map sigma pix_to_face dists k))

/-- The far clipping plane, hard-coded to `100.0` in `softmax_rgb_blend`. -/
def zfar : ℝ := 100

/-- The near clipping plane, hard-coded to `1.0` in `softmax_rgb_blend`. -/
def znear : ℝ := 1

/-- One pixel of `z_inv = (zfar - fragments.zbuf) / (zfar - znear) * mask`. -/
noncomputable def z_inv {K : ℕ} (pix_to_face : Fin (K+1) → ℤ)
    (zbuf : Fin (K+1) → ℝ) (k : Fin (K+1)) : ℝ :=
  (zfar - zbuf k) / (zfar - znear) * maskVal (pix_to_face k)

/-- One pixel of `z_inv_max = torch.max (z_inv) .values` over the K axis. -/
noncomputable def z_inv_max {K : ℕ} (pix_to_face : Fin (K+1) → ℤ)
    (zbuf : Fin (K+1) → ℝ) : ℝ :=
  Finset.univ.sup' Finset.univ_nonempty (z_inv pix_to_face zbuf)

/-- `delta = np.exp (1e-10 / blend_params.gamma) * 1e-10`, the background
mass constant of `softmax_rgb_blend`. -/
noncomputable def delta (gamma : ℝ) : ℝ := Real.exp (1e-10 / gamma) * 1e-10

/-- One pixel of
`weights_num = prob_map * torch.exp ((z_inv - z_inv_max) / blend_params.gamma)`. -/
noncomputable def weights_num {K : ℕ} (sigma gamma : ℝ)
    (pix_to_face : Fin (K+1) → ℤ) (dists zbuf : Fin (K+1) → ℝ)
    (k : Fin (K+1)) : ℝ :=
  prob_map sigma pix_to_face dists k *
    Real.exp ((z_inv pix_to_face zbuf k - z_inv_max pix_to_face zbuf) / gamma)

/-- One pixel of `denom = weights_num.sum dim + delta` where the sum runs
over the K axis. -/
noncomputable def denom {K : ℕ} (sigma gamma : ℝ)
    (pix_to_face : Fin (K+1) → ℤ) (dists zbuf : Fin (K+1) → ℝ) : ℝ :=
  (∑ k, weights_num sigma gamma pix_to_face dists zbuf k) + delta gamma

/-- One pixel of `weights = weights_num / denom`. -/
noncomputable def weights {K : ℕ} (sigma gamma : ℝ)
    (pix_to_face : Fin (K+1) → ℤ) (dists zbuf : Fin (K+1) → ℝ)
    (k : Fin (K+1)) : ℝ :=
  weights_num sigma gamma pix_to_face dists zbuf k /
    denom sigma gamma pix_to_face dists zbuf

/-- One pixel and channel of
`weighted_colors = (weights * colors).sum` over the K axis. -/
noncomputable def weighted_colors {K : ℕ} (sigma gamma : ℝ)
    (pix_to_face : Fin (K+1) → ℤ) (dists zbuf : Fin (K+1) → ℝ)
    (colors_pix : Fin (K+1) → Fin 3 → ℝ) (c : Fin 3) : ℝ :=
  ∑ k, weights sigma gamma pix_to_face dists zbuf k * colors_pix k c

/-- One pixel and channel of
`weighted_background = (delta / denom) * background`. -/
noncomputable def weighted_background {K : ℕ} (sigma gamma : ℝ)
    (pix_to_face : Fin (K+1) → ℤ) (dists zbuf : Fin (K+1) → ℝ)
    (background : Fin 3 → ℝ) (c : Fin 3) : ℝ :=
  delta gamma / denom sigma gamma pix_to_face dists zbuf * background c

/-- `hard_rgb_blend`: RGB is the slot-0 color, alpha is `1.0` everywhere,
the row axis is flipped.  The `fragments` argument is used by the source
only to read off the output shape and device, so it is unused here. -/
noncomputable def hard_rgb_blend {N H W K : ℕ} (colors : Colors N H W K)
    (fragments : Fragments N H W K) : Image N H W :=
  fun n h w c =>
    if hc : (c : ℕ) < 3 then colors n (Fin.rev h) w 0 ⟨c, hc⟩ else 1

/-- `sigmoid_alpha_blend`: RGB is the slot-0 color, alpha is the
probabilistic-OR aggregation `alpha`, every channel clamped to [0,1], row
axis flipped.  The source reads `blend_params.sigma`; the `sigma` parameter
stands for that value. -/
noncomputable def sigmoid_alpha_blend {N H W K : ℕ} (colors : Colors N H W K)
    (fragments : Fragments N H W K) (sigma : ℝ) : Image N H W :=
  fun n h w c =>
    clamp01
      (if hc : (c : ℕ) < 3 then colors n (Fin.rev h) w 0 ⟨c, hc⟩
       else alpha sigma (fragments.pix_to_face n (Fin.rev h) w)
              (fragments.dists n (Fin.rev h) w))

/-- `softmax_rgb_blend`: RGB is `weighted_colors + weighted_background` and
alpha is `alpha`, every channel clamped to [0,1], row axis flipped.  The
source reads `blend_params.sigma`, `blend_params.gamma` and
`blend_params.background_color`; the parameters `sigma`, `gamma` and
`background` stand for those values. -/
noncomputable def softmax_rgb_blend {N H W K : ℕ} (colors : Colors N H W K)
    (fragments : Fragments N H W K) (sigma gamma : ℝ)
    (background : Fin 3 → ℝ) : Image N H W :=
  fun n h w c =>
    clamp01
      (if hc : (c : ℕ) < 3 then
         weighted_colors sigma gamma (fragments.pix_to_face n (Fin.rev h) w)
             (fragments.dists n (Fin.rev h) w)
             (fragments.zbuf n (Fin.rev h) w) (colors n (Fin.rev h) w) ⟨c, hc⟩
           + weighted_background sigma gamma
               (fragments.pix_to_face n (Fin.rev h) w)
               (fragments.dists n (Fin.rev h) w)
               (fragments.zbuf n (Fin.rev h) w) background ⟨c, hc⟩
       else alpha sigma (fragments.pix_to_face n (Fin.rev h) w)
              (fragments.dists n (Fin.rev h) w))

/-- `BlendParams` from the source: a `typing.NamedTuple` whose annotated
fields are `sigma` and `gamma`, each defaulted to `1e-4`.  The source line
`background_color = (1.0, 1.0, 1.0)` carries no type annotation, so in a
`NamedTuple` it is a class attribute, not a field of the tuple. -/
structure BlendParams where
  sigma : ℝ := 1e-4
  gamma : ℝ := 1e-4

/-- The class attribute `background_color` of `BlendParams`: the same value
`(1.0, 1.0, 1.0)` for every instance, not settable through the constructor. -/
def BlendParams.background_color (_bp : BlendParams) : Fin 3 → ℝ := fun _ => 1

/-- Following the spec's description of the softmax weight numerators
"computed without the subtraction" of `z_inv_max`:
`prob_map * exp (z_inv / gamma)`.  Comparison definition for the
numerical-stability refinement. -/
noncomputable def weights_num_nosub {K : ℕ} (sigma gamma : ℝ)
    (pix_to_face : Fin (K+1) → ℤ) (dists zbuf : Fin (K+1) → ℝ)
    (k : Fin (K+1)) : ℝ :=
  prob_map sigma pix_to_face dists k *
    Real.exp (z_inv pix_to_face zbuf k / gamma)

/-- The normalization denominator computed from the unsubtracted numerators,
with the same `delta` constant. -/
noncomputable def denom_nosub {K : ℕ} (sigma gamma : ℝ)
    (pix_to_face : Fin (K+1) → ℤ) (dists zbuf : Fin (K+1) → ℝ) : ℝ :=
  (∑ k, weights_num_nosub sigma gamma pix_to_face dists zbuf k) + delta gamma

/-- The normalized weights computed without the `z_inv_max` subtraction. -/
noncomputable def weights_nosub {K : ℕ} (sigma gamma : ℝ)
    (pix_to_face : Fin (K+1) → ℤ) (dists zbuf : Fin (K+1) → ℝ)
    (k : Fin (K+1)) : ℝ :=
  weights_num_nosub sigma gamma pix_to_face dists zbuf k /
    denom_nosub sigma gamma pix_to_face dists zbuf

/-! Basic facts about the per-pixel building blocks. -/

lemma sigmoid_pos (x : ℝ) : 0 < sigmoid x := by
  unfold sigmoid
  positivity

lemma sigmoid_lt_one (x : ℝ) : sigmoid x < 1 := by
  unfold sigmoid
  rw [div_lt_one (by positivity)]
  linarith [Real.exp_pos (-x)]

lemma sigmoid_le_sigmoid {a b : ℝ} (h : a ≤ b) : sigmoid a ≤ sigmoid b := by
  unfold sigmoid
  apply one_div_le_one_div_of_le (by positivity)
  have he := Real.exp_le_exp.mpr (neg_le_neg h)
  linarith

lemma maskVal_nonneg (i : ℤ) : 0 ≤ maskVal i := by
  unfold maskVal
  split <;> norm_num

lemma maskVal_of_neg {i : ℤ} (h : i < 0) : maskVal i = 0 := by
  unfold maskVal
  rw [if_neg (not_le.mpr h)]

lemma maskVal_of_nonneg {i : ℤ} (h : 0 ≤ i) : maskVal i = 1 := by
  unfold maskVal
  rw [if_pos h]

lemma prob_map_nonneg {K : ℕ} (sigma : ℝ) (pix_to_face : Fin (K+1) → ℤ)
    (dists : Fin (K+1) → ℝ) (k : Fin (K+1)) :
    0 ≤ prob_map sigma pix_to_face dists k :=
  mul_nonneg (sigmoid_pos _).le (maskVal_nonneg _)

lemma prob_map_lt_one {K : ℕ} (sigma : ℝ) (pix_to_face : Fin (K+1) → ℤ)
    (dists : Fin (K+1) → ℝ) (k : Fin (K+1)) :
    prob_map sigma pix_to_face dists k < 1 := by
  unfold prob_map maskVal
  split
  · rw [mul_one]
    exact sigmoid_lt_one _
  · rw [mul_zero]
    norm_num

lemma one_sub_prob_map_pos {K : ℕ} (sigma : ℝ) (pix_to_face : Fin (K+1) → ℤ)
    (dists : Fin (K+1) → ℝ) (k : Fin (K+1)) :
    0 < 1 - prob_map sigma pix_to_face dists k := by
  linarith [prob_map_lt_one sigma pix_to_face dists k]

lemma alpha_eq_one_sub_prod {K : ℕ} (sigma : ℝ) (pix_to_face : Fin (K+1) → ℤ)
    (dists : Fin (K+1) → ℝ) :
    alpha sigma pix_to_face dists =
      1 - ∏ k, (1 - prob_map sigma pix_to_face dists k) := by
  unfold alpha
  rw [Real.exp_sum]
  congr 1
  exact Finset.prod_congr rfl fun k _ =>
    Real.exp_log (one_sub_prob_map_pos sigma pix_to_face dists k)

lemma delta_pos (gamma : ℝ) : 0 < delta gamma := by
  unfold delta
  positivity

lemma weights_num_nonneg {K : ℕ} (sigma gamma : ℝ)
    (pix_to_face : Fin (K+1) → ℤ) (dists zbuf : Fin (K+1) → ℝ)
    (k : Fin (K+1)) : 0 ≤ weights_num sigma gamma pix_to_face dists zbuf k :=
  mul_nonneg (prob_map_nonneg sigma pix_to_face dists k) (Real.exp_pos _).le

lemma weights_num_nosub_nonneg {K : ℕ} (sigma gamma : ℝ)
    (pix_to_face : Fin (K+1) → ℤ) (dists zbuf : Fin (K+1) → ℝ)
    (k : Fin (K+1)) :
    0 ≤ weights_num_nosub sigma gamma pix_to_face dists zbuf k :=
  mul_nonneg (prob_map_nonneg sigma pix_to_face dists k) (Real.exp_pos _).le

lemma denom_pos {K : ℕ} (sigma gamma : ℝ) (pix_to_face : Fin (K+1) → ℤ)
    (dists zbuf : Fin (K+1) → ℝ) :
    0 < denom sigma gamma pix_to_face dists zbuf := by
  unfold denom
  have h1 : 0 ≤ ∑ k, weights_num sigma gamma pix_to_face dists zbuf k :=
    Finset.sum_nonneg fun k _ =>
      weights_num_nonneg sigma gamma pix_to_face dists zbuf k
  linarith [delta_pos gamma]

lemma denom_nosub_pos {K : ℕ} (sigma gamma : ℝ) (pix_to_face : Fin (K+1) → ℤ)
    (dists zbuf : Fin (K+1) → ℝ) :
    0 < denom_nosub sigma gamma pix_to_face dists zbuf := by
  unfold denom_nosub
  have h1 : 0 ≤ ∑ k, weights_num_nosub sigma gamma pix_to_face dists zbuf k :=
    Finset.sum_nonneg fun k _ =>
      weights_num_nosub_nonneg sigma gamma pix_to_face dists zbuf k
  linarith [delta_pos gamma]

lemma clamp01_nonneg (x : ℝ) : 0 ≤ clamp01 x :=
  le_min (le_max_right x 0) zero_le_one

lemma clamp01_le_one (x : ℝ) : clamp01 x ≤ 1 := min_le_right _ _

lemma prob_map_of_invalid {K : ℕ} (sigma : ℝ) {pix_to_face : Fin (K+1) → ℤ}
    (dists : Fin (K+1) → ℝ) {k : Fin (K+1)} (h : pix_to_face k < 0) :
    prob_map sigma pix_to_face dists k = 0 := by
  unfold prob_map
  rw [maskVal_of_neg h, mul_zero]

lemma weights_num_of_invalid {K : ℕ} (sigma gamma : ℝ)
    {pix_to_face : Fin (K+1) → ℤ} (dists zbuf : Fin (K+1) → ℝ)
    {k : Fin (K+1)} (h : pix_to_face k < 0) :
    weights_num sigma gamma pix_to_face dists zbuf k = 0 := by
  unfold weights_num
  rw [prob_map_of_invalid sigma dists h, zero_mul]

lemma z_inv_of_invalid {K : ℕ} {pix_to_face : Fin (K+1) → ℤ}
    (zbuf : Fin (K+1) → ℝ) {k : Fin (K+1)} (h : pix_to_face k < 0) :
    z_inv pix_to_face zbuf k = 0 := by
  unfold z_inv
  rw [maskVal_of_neg h, mul_zero]

lemma prob_map_congr {K : ℕ} (sigma : ℝ) {pix_to_face : Fin (K+1) → ℤ}
    {dists dists' : Fin (K+1) → ℝ}
    (hd : ∀ k, 0 ≤ pix_to_face k → dists k = dists' k) :
    prob_map sigma pix_to_face dists = prob_map sigma pix_to_face dists' := by
  funext k
  by_cases hk : 0 ≤ pix_to_face k
  · unfold prob_map
    rw [hd k hk]
  · rw [prob_map_of_invalid sigma dists (not_le.mp hk),
      prob_map_of_invalid sigma dists' (not_le.mp hk)]

lemma z_inv_congr {K : ℕ} {pix_to_face : Fin (K+1) → ℤ}
    {zbuf zbuf' : Fin (K+1) → ℝ}
    (hz : ∀ k, 0 ≤ pix_to_face k → zbuf k = zbuf' k) :
    z_inv pix_to_face zbuf = z_inv pix_to_face zbuf' := by
  funext k
  by_cases hk : 0 ≤ pix_to_face k
  · unfold z_inv
    rw [hz k hk]
  · rw [z_inv_of_invalid zbuf (not_le.mp hk),
      z_inv_of_invalid zbuf' (not_le.mp hk)]

/-! Claim theorems. -/

/-- Claim C1: at every pixel of `softmax_rgb_blend`, the K normalized
per-face weights `weights_num k / denom` and the background weight
`delta / denom` sum to exactly 1, and every one of them is nonnegative, so
the composited RGB `weighted_colors + weighted_background` is a convex
combination of the K face colors and the background color. -/
theorem softmax_weights_convex {K : ℕ} (sigma gamma : ℝ)
    (pix_to_face : Fin (K+1) → ℤ) (dists zbuf : Fin (K+1) → ℝ) :
    (∑ k, weights sigma gamma pix_to_face dists zbuf k) +
        delta gamma / denom sigma gamma pix_to_face dists zbuf = 1
    ∧ (∀ k, 0 ≤ weights sigma gamma pix_to_face dists zbuf k)
    ∧ 0 ≤ delta gamma / denom sigma gamma pix_to_face dists zbuf := by
  have hD := denom_pos sigma gamma pix_to_face dists zbuf
  refine ⟨?_, ?_, ?_⟩
  · unfold weights
    rw [← Finset.sum_div, div_add_div_same]
    exact div_self hD.ne'
  · intro k
    exact div_nonneg (weights_num_nonneg sigma gamma pix_to_face dists zbuf k)
      hD.le
  · exact div_nonneg (delta_pos gamma).le hD.le

/-- Claim C4: the log-domain alpha aggregation
`1 - exp (sum of log (1 - prob))` used by `sigmoid_alpha_blend` and
`softmax_rgb_blend` equals the probabilistic-OR product form
`1 - prod of (1 - prob)` in exact arithmetic; the probabilities
`prob_map k` produced by the code always lie in [0,1). -/
theorem alpha_log_sum_eq_prod {K : ℕ} (sigma : ℝ)
    (pix_to_face : Fin (K+1) → ℤ) (dists : Fin (K+1) → ℝ) :
    (∀ k, 0 ≤ prob_map sigma pix_to_face dists k
        ∧ prob_map sigma pix_to_face dists k < 1)
    ∧ alpha sigma pix_to_face dists =
        1 - ∏ k, (1 - prob_map sigma pix_to_face dists k) :=
  ⟨fun k => ⟨prob_map_nonneg sigma pix_to_face dists k,
      prob_map_lt_one sigma pix_to_face dists k⟩,
    alpha_eq_one_sub_prod sigma pix_to_face dists⟩

/-- Claim C7: `hard_rgb_blend` outputs, at every pixel, RGB equal to the
slot k equal 0 color — whatever the face indices are, since `fragments` is
never read — and alpha 1.0 unconditionally; the output has shape
(N, H, W, 4) (its type) and is vertically flipped: output row `h` reads
input row `Fin.rev h`. -/
theorem hard_rgb_blend_spec {N H W K : ℕ} (colors : Colors N H W K)
    (fragments : Fragments N H W K) (n : Fin N) (h : Fin H) (w : Fin W) :
    hard_rgb_blend colors fragments n h w 0 = colors n (Fin.rev h) w 0 0
    ∧ hard_rgb_blend colors fragments n h w 1 = colors n (Fin.rev h) w 0 1
    ∧ hard_rgb_blend colors fragments n h w 2 = colors n (Fin.rev h) w 0 2
    ∧ hard_rgb_blend colors fragments n h w 3 = 1 :=
  ⟨rfl, rfl, rfl, rfl⟩

/-- Claim C9 (the code diverges from it): in the source, the line
`background_color = (1.0, 1.0, 1.0)` inside the NamedTuple `BlendParams`
has no type annotation, so it is a class attribute rather than a field:
every instance, however constructed, carries background color
(1.0, 1.0, 1.0), and the constructor accepts only `sigma` and `gamma`
(each defaulting to 1e-4). -/
theorem blendparams_background_fixed :
    (fun bp : BlendParams => bp.background_color) =
        (fun _ => fun _ => (1 : ℝ))
    ∧ ({} : BlendParams).sigma = 1e-4
    ∧ ({} : BlendParams).gamma = 1e-4
    ∧ (BlendParams.mk 0.5 0.7).background_color =
        (BlendParams.mk 0.1 0.2).background_color :=
  ⟨rfl, rfl, rfl, rfl⟩

/-- Claim C3 (amended): subtracting `z_inv_max` inside the exponent
multiplies every per-face weight numerator by the same positive factor
`exp (-(z_inv_max / gamma))`, so the ratios of per-face weights are
unchanged; but because the constant `delta` is not rescaled, the normalized
weights equal the unsubtracted numerators normalized against
`sum + delta * exp (z_inv_max / gamma)` — not against `sum + delta` as the
computation without the subtraction would give. -/
theorem zinvmax_subtraction_scales_numerators {K : ℕ} (sigma gamma : ℝ)
    (pix_to_face : Fin (K+1) → ℤ) (dists zbuf : Fin (K+1) → ℝ) :
    0 < Real.exp (-(z_inv_max pix_to_face zbuf / gamma))
    ∧ (∀ k, weights_num sigma gamma pix_to_face dists zbuf k =
        Real.exp (-(z_inv_max pix_to_face zbuf / gamma)) *
          weights_num_nosub sigma gamma pix_to_face dists zbuf k)
    ∧ ∀ k, weights sigma gamma pix_to_face dists zbuf k =
        weights_num_nosub sigma gamma pix_to_face dists zbuf k /
          ((∑ j, weights_num_nosub sigma gamma pix_to_face dists zbuf j) +
            delta gamma * Real.exp (z_inv_max pix_to_face zbuf / gamma)) := by
  have h1 : ∀ k, weights_num sigma gamma pix_to_face dists zbuf k =
      Real.exp (-(z_inv_max pix_to_face zbuf / gamma)) *
        weights_num_nosub sigma gamma pix_to_face dists zbuf k := by
    intro k
    unfold weights_num weights_num_nosub
    rw [sub_div, Real.exp_sub, Real.exp_neg]
    ring
  refine ⟨Real.exp_pos _, h1, fun k => ?_⟩
  have hE : (0:ℝ) < Real.exp (z_inv_max pix_to_face zbuf / gamma) :=
    Real.exp_pos _
  have hEne : Real.exp (z_inv_max pix_to_face zbuf / gamma) ≠ 0 := hE.ne'
  have hS : (0:ℝ) ≤
      ∑ j, weights_num_nosub sigma gamma pix_to_face dists zbuf j :=
    Finset.sum_nonneg fun j _ =>
      weights_num_nosub_nonneg sigma gamma pix_to_face dists zbuf j
  have hd := delta_pos gamma
  have hsum : ∑ j, weights_num sigma gamma pix_to_face dists zbuf j =
      Real.exp (-(z_inv_max pix_to_face zbuf / gamma)) *
        ∑ j, weights_num_nosub sigma gamma pix_to_face dists zbuf j := by
    rw [Finset.mul_sum]
    exact Finset.sum_congr rfl fun j _ => h1 j
  have hden1 : (0:ℝ) <
      Real.exp (-(z_inv_max pix_to_face zbuf / gamma)) *
        (∑ j, weights_num_nosub sigma gamma pix_to_face dists zbuf j) +
        delta gamma := by
    have hp : (0:ℝ) ≤ Real.exp (-(z_inv_max pix_to_face zbuf / gamma)) *
        ∑ j, weights_num_nosub sigma gamma pix_to_face dists zbuf j :=
      mul_nonneg (Real.exp_pos _).le hS
    linarith
  have hden2 : (0:ℝ) <
      (∑ j, weights_num_nosub sigma gamma pix_to_face dists zbuf j) +
        delta gamma * Real.exp (z_inv_max pix_to_face zbuf / gamma) := by
    have hp : (0:ℝ) <
        delta gamma * Real.exp (z_inv_max pix_to_face zbuf / gamma) :=
      mul_pos hd hE
    linarith
  unfold weights denom
  rw [h1 k, hsum, div_eq_div_iff hden1.ne' hden2.ne', Real.exp_neg]
  field_simp

/-- Claim C3 (counterexample): with a single valid slot, dists 0, zbuf 1 and
sigma and gamma equal 1, the normalized weight computed with the `z_inv_max`
subtraction differs, in exact arithmetic, from the weight computed without
the subtraction, because the `delta` term of the denominator is not
rescaled. -/
theorem zinvmax_subtraction_changes_weights :
    weights 1 1 (fun _ : Fin 1 => (0:ℤ)) (fun _ => (0:ℝ)) (fun _ => (1:ℝ)) 0 ≠
      weights_nosub 1 1 (fun _ : Fin 1 => (0:ℤ)) (fun _ => (0:ℝ))
        (fun _ => (1:ℝ)) 0 := by
  have hsig : sigmoid 0 = 1/2 := by
    unfold sigmoid
    rw [neg_zero, Real.exp_zero]
    norm_num
  have hprob : prob_map 1 (fun _ : Fin 1 => (0:ℤ)) (fun _ => (0:ℝ)) 0 = 1/2 := by
    show sigmoid (-(0:ℝ)/1) * maskVal 0 = 1/2
    rw [maskVal_of_nonneg le_rfl, mul_one]
    rw [show -(0:ℝ)/1 = 0 by norm_num, hsig]
  have hz : ∀ k : Fin 1,
      z_inv (fun _ : Fin 1 => (0:ℤ)) (fun _ => (1:ℝ)) k = 1 := by
    intro k
    show (zfar - 1) / (zfar - znear) * maskVal 0 = 1
    rw [maskVal_of_nonneg le_rfl]
    unfold zfar znear
    norm_num
  have hm : z_inv_max (fun _ : Fin 1 => (0:ℤ)) (fun _ => (1:ℝ)) = 1 := by
    unfold z_inv_max
    calc Finset.univ.sup' Finset.univ_nonempty
          (z_inv (fun _ : Fin 1 => (0:ℤ)) (fun _ => (1:ℝ)))
        = Finset.univ.sup' Finset.univ_nonempty (fun _ : Fin 1 => (1:ℝ)) :=
          Finset.sup'_congr _ rfl fun k _ => hz k
      _ = 1 := Finset.sup'_const _ 1
  have hwn : weights_num 1 1 (fun _ : Fin 1 => (0:ℤ)) (fun _ => (0:ℝ))
      (fun _ => (1:ℝ)) 0 = 1/2 := by
    unfold weights_num
    rw [hprob, hm, hz 0]
    norm_num [Real.exp_zero]
  have hwn' : weights_num_nosub 1 1 (fun _ : Fin 1 => (0:ℤ)) (fun _ => (0:ℝ))
      (fun _ => (1:ℝ)) 0 = 1/2 * Real.exp 1 := by
    unfold weights_num_nosub
    rw [hprob, hz 0]
    norm_num
  have hsum : ∑ k : Fin 1, weights_num 1 1 (fun _ : Fin 1 => (0:ℤ))
      (fun _ => (0:ℝ)) (fun _ => (1:ℝ)) k = 1/2 := by
    rw [Fin.sum_univ_one]
    exact hwn
  have hsum' : ∑ k : Fin 1, weights_num_nosub 1 1 (fun _ : Fin 1 => (0:ℤ))
      (fun _ => (0:ℝ)) (fun _ => (1:ℝ)) k = 1/2 * Real.exp 1 := by
    rw [Fin.sum_univ_one]
    exact hwn'
  have hd : (0:ℝ) < delta 1 := delta_pos 1
  have he : (1:ℝ) < Real.exp 1 := by
    linarith [Real.exp_one_gt_d9]
  have d1 : (0:ℝ) < 1/2 + delta 1 := by linarith
  have d2 : (0:ℝ) < 1/2 * Real.exp 1 + delta 1 := by nlinarith
  unfold weights denom weights_nosub denom_nosub
  rw [hwn, hsum, hwn', hsum']
  intro heq
  rw [div_eq_div_iff d1.ne' d2.ne'] at heq
  nlinarith [mul_pos hd (sub_pos.mpr he)]

lemma clamp01_of_mem {x : ℝ} (h0 : 0 ≤ x) (h1 : x ≤ 1) : clamp01 x = x := by
  unfold clamp01
  rw [max_eq_left h0, min_eq_left h1]

lemma clamp01_zero : clamp01 0 = 0 := clamp01_of_mem le_rfl zero_le_one

lemma alpha_congr {K : ℕ} (sigma : ℝ) {pix_to_face : Fin (K+1) → ℤ}
    {dists dists' : Fin (K+1) → ℝ}
    (hd : ∀ k, 0 ≤ pix_to_face k → dists k = dists' k) :
    alpha sigma pix_to_face dists = alpha sigma pix_to_face dists' := by
  unfold alpha
  rw [prob_map_congr sigma hd]

lemma weights_num_congr {K : ℕ} (sigma gamma : ℝ)
    {pix_to_face : Fin (K+1) → ℤ} {dists dists' zbuf zbuf' : Fin (K+1) → ℝ}
    (hd : ∀ k, 0 ≤ pix_to_face k → dists k = dists' k)
    (hz : ∀ k, 0 ≤ pix_to_face k → zbuf k = zbuf' k) :
    weights_num sigma gamma pix_to_face dists zbuf =
      weights_num sigma gamma pix_to_face dists' zbuf' := by
  funext k
  unfold weights_num z_inv_max
  rw [prob_map_congr sigma hd, z_inv_congr hz]

lemma softmax_rgb_pixel_congr {K : ℕ} (sigma gamma : ℝ)
    {pix_to_face : Fin (K+1) → ℤ} {dists dists' zbuf zbuf' : Fin (K+1) → ℝ}
    (hd : ∀ k, 0 ≤ pix_to_face k → dists k = dists' k)
    (hz : ∀ k, 0 ≤ pix_to_face k → zbuf k = zbuf' k)
    (colors_pix : Fin (K+1) → Fin 3 → ℝ) (background : Fin 3 → ℝ)
    (c : Fin 3) :
    weighted_colors sigma gamma pix_to_face dists zbuf colors_pix c
        + weighted_background sigma gamma pix_to_face dists zbuf background c =
      weighted_colors sigma gamma pix_to_face dists' zbuf' colors_pix c
        + weighted_background sigma gamma pix_to_face dists' zbuf' background c := by
  unfold weighted_colors weighted_background weights denom
  rw [weights_num_congr sigma gamma hd hz]

lemma alpha_of_all_invalid {K : ℕ} (sigma : ℝ) {pix_to_face : Fin (K+1) → ℤ}
    (dists : Fin (K+1) → ℝ) (hall : ∀ k, pix_to_face k < 0) :
    alpha sigma pix_to_face dists = 0 := by
  unfold alpha
  have hsum : (∑ k, Real.log (1 - prob_map sigma pix_to_face dists k)) = 0 :=
    Finset.sum_eq_zero fun k _ => by
      rw [prob_map_of_invalid sigma dists (hall k), sub_zero, Real.log_one]
  rw [hsum, Real.exp_zero, sub_self]

lemma denom_of_all_invalid {K : ℕ} (sigma gamma : ℝ)
    {pix_to_face : Fin (K+1) → ℤ} (dists zbuf : Fin (K+1) → ℝ)
    (hall : ∀ k, pix_to_face k < 0) :
    denom sigma gamma pix_to_face dists zbuf = delta gamma := by
  unfold denom
  rw [Finset.sum_eq_zero fun k _ =>
    weights_num_of_invalid sigma gamma dists zbuf (hall k), zero_add]

lemma weighted_colors_of_all_invalid {K : ℕ} (sigma gamma : ℝ)
    {pix_to_face : Fin (K+1) → ℤ} (dists zbuf : Fin (K+1) → ℝ)
    (colors_pix : Fin (K+1) → Fin 3 → ℝ) (c : Fin 3)
    (hall : ∀ k, pix_to_face k < 0) :
    weighted_colors sigma gamma pix_to_face dists zbuf colors_pix c = 0 := by
  unfold weighted_colors weights
  exact Finset.sum_eq_zero fun k _ => by
    rw [weights_num_of_invalid sigma gamma dists zbuf (hall k), zero_div,
      zero_mul]

lemma weighted_background_of_all_invalid {K : ℕ} (sigma gamma : ℝ)
    {pix_to_face : Fin (K+1) → ℤ} (dists zbuf : Fin (K+1) → ℝ)
    (background : Fin 3 → ℝ) (c : Fin 3) (hall : ∀ k, pix_to_face k < 0) :
    weighted_background sigma gamma pix_to_face dists zbuf background c =
      background c := by
  unfold weighted_background
  rw [denom_of_all_invalid sigma gamma dists zbuf hall,
    div_self (delta_pos gamma).ne', one_mul]

/-- Claim C5: slots with a negative face index contribute probability 0 to
the alpha of both soft blends and weight-numerator 0 (hence no RGB
contribution) in `softmax_rgb_blend`; moreover the full outputs of
`sigmoid_alpha_blend` and `softmax_rgb_blend` never change when the
`dists`/`zbuf` values of invalid slots change arbitrarily. -/
theorem invalid_slots_no_contribution {N H W K : ℕ} (colors : Colors N H W K)
    (fr fr' : Fragments N H W K) (sigma gamma : ℝ) (background : Fin 3 → ℝ)
    (hp : fr.pix_to_face = fr'.pix_to_face)
    (hd : ∀ n h w k, 0 ≤ fr.pix_to_face n h w k →
      fr.dists n h w k = fr'.dists n h w k)
    (hz : ∀ n h w k, 0 ≤ fr.pix_to_face n h w k →
      fr.zbuf n h w k = fr'.zbuf n h w k) :
    (∀ n h w k, fr.pix_to_face n h w k < 0 →
        prob_map sigma (fr.pix_to_face n h w) (fr.dists n h w) k = 0
        ∧ weights_num sigma gamma (fr.pix_to_face n h w) (fr.dists n h w)
            (fr.zbuf n h w) k = 0)
    ∧ sigmoid_alpha_blend colors fr sigma = sigmoid_alpha_blend colors fr' sigma
    ∧ softmax_rgb_blend colors fr sigma gamma background =
        softmax_rgb_blend colors fr' sigma gamma background := by
  refine ⟨?_, ?_, ?_⟩
  · intro n h w k hk
    exact ⟨prob_map_of_invalid sigma (fr.dists n h w) hk,
      weights_num_of_invalid sigma gamma (fr.dists n h w) (fr.zbuf n h w) hk⟩
  · funext n h w c
    unfold sigmoid_alpha_blend
    rw [← hp]
    refine congrArg clamp01 ?_
    by_cases hc : (c : ℕ) < 3
    · rw [dif_pos hc, dif_pos hc]
    · rw [dif_neg hc, dif_neg hc]
      exact alpha_congr sigma fun k hk => hd n (Fin.rev h) w k hk
  · funext n h w c
    unfold softmax_rgb_blend
    rw [← hp]
    refine congrArg clamp01 ?_
    by_cases hc : (c : ℕ) < 3
    · rw [dif_pos hc, dif_pos hc]
      exact softmax_rgb_pixel_congr sigma gamma
        (fun k hk => hd n (Fin.rev h) w k hk)
        (fun k hk => hz n (Fin.rev h) w k hk) _ background _
    · rw [dif_neg hc, dif_neg hc]
      exact alpha_congr sigma fun k hk => hd n (Fin.rev h) w k hk

/-- Claim C5 witness: a one-pixel, one-slot instance whose single slot is
invalid; the two soft blends give identical outputs although `dists` and
`zbuf` differ between the two invocations. -/
theorem invalid_slots_no_contribution_witness :
    sigmoid_alpha_blend (fun _ _ _ _ _ => (0.5:ℝ))
        (Fragments.mk (fun _ _ _ _ => (-1:ℤ)) (fun _ _ _ _ => (5:ℝ))
          (fun _ _ _ _ => (3:ℝ)) : Fragments 1 1 1 0) 1 =
      sigmoid_alpha_blend (fun _ _ _ _ _ => (0.5:ℝ))
        (Fragments.mk (fun _ _ _ _ => (-1:ℤ)) (fun _ _ _ _ => (7:ℝ))
          (fun _ _ _ _ => (9:ℝ)) : Fragments 1 1 1 0) 1
    ∧ softmax_rgb_blend (fun _ _ _ _ _ => (0.5:ℝ))
        (Fragments.mk (fun _ _ _ _ => (-1:ℤ)) (fun _ _ _ _ => (5:ℝ))
          (fun _ _ _ _ => (3:ℝ)) : Fragments 1 1 1 0) 1 1 (fun _ => 0) =
      softmax_rgb_blend (fun _ _ _ _ _ => (0.5:ℝ))
        (Fragments.mk (fun _ _ _ _ => (-1:ℤ)) (fun _ _ _ _ => (7:ℝ))
          (fun _ _ _ _ => (9:ℝ)) : Fragments 1 1 1 0) 1 1 (fun _ => 0) := by
  have h := invalid_slots_no_contribution (fun _ _ _ _ _ => (0.5:ℝ))
    (Fragments.mk (fun _ _ _ _ => (-1:ℤ)) (fun _ _ _ _ => (5:ℝ))
      (fun _ _ _ _ => (3:ℝ)) : Fragments 1 1 1 0)
    (Fragments.mk (fun _ _ _ _ => (-1:ℤ)) (fun _ _ _ _ => (7:ℝ))
      (fun _ _ _ _ => (9:ℝ)) : Fragments 1 1 1 0)
    1 1 (fun _ => 0) rfl
    (fun n h w k hk => absurd hk (show ¬(0:ℤ) ≤ -1 by decide))
    (fun n h w k hk => absurd hk (show ¬(0:ℤ) ≤ -1 by decide))
  exact ⟨h.2.1, h.2.2⟩

/-- Claim C6: at a pixel all of whose slots have a negative face index,
`sigmoid_alpha_blend` outputs alpha 0, and `softmax_rgb_blend` outputs the
clamped background color in RGB and alpha 0 (the flipped output row
`Fin.rev h` holds the values of input row `h`). -/
theorem all_invalid_pixel_background {N H W K : ℕ} (colors : Colors N H W K)
    (fr : Fragments N H W K) (sigma gamma : ℝ) (background : Fin 3 → ℝ)
    (n : Fin N) (h : Fin H) (w : Fin W)
    (hall : ∀ k, fr.pix_to_face n h w k < 0) :
    sigmoid_alpha_blend colors fr sigma n (Fin.rev h) w 3 = 0
    ∧ softmax_rgb_blend colors fr sigma gamma background n (Fin.rev h) w 0 =
        clamp01 (background 0)
    ∧ softmax_rgb_blend colors fr sigma gamma background n (Fin.rev h) w 1 =
        clamp01 (background 1)
    ∧ softmax_rgb_blend colors fr sigma gamma background n (Fin.rev h) w 2 =
        clamp01 (background 2)
    ∧ softmax_rgb_blend colors fr sigma gamma background n (Fin.rev h) w 3 =
        0 := by
  have halpha : sigmoid_alpha_blend colors fr sigma n (Fin.rev h) w 3 = 0 := by
    unfold sigmoid_alpha_blend
    rw [dif_neg (by decide : ¬((3:Fin 4) : ℕ) < 3), Fin.rev_rev,
      alpha_of_all_invalid sigma _ hall, clamp01_zero]
  have hrgb : ∀ c : Fin 4, ∀ hc : (c : ℕ) < 3,
      softmax_rgb_blend colors fr sigma gamma background n (Fin.rev h) w c =
        clamp01 (background ⟨c, hc⟩) := by
    intro c hc
    unfold softmax_rgb_blend
    rw [dif_pos hc, Fin.rev_rev,
      weighted_colors_of_all_invalid sigma gamma _ _ _ _ hall,
      weighted_background_of_all_invalid sigma gamma _ _ _ _ hall, zero_add]
  have hrgba : softmax_rgb_blend colors fr sigma gamma background n
      (Fin.rev h) w 3 = 0 := by
    unfold softmax_rgb_blend
    rw [dif_neg (by decide : ¬((3:Fin 4) : ℕ) < 3), Fin.rev_rev,
      alpha_of_all_invalid sigma _ hall, clamp01_zero]
  exact ⟨halpha, hrgb 0 (by decide), hrgb 1 (by decide), hrgb 2 (by decide),
    hrgba⟩

/-- Claim C6 witness: the spec's background-only scenario, with two slots
(K equal 2 in the spec's counting), both face indices -1 and background
color (0.1, 0.2, 0.3): the softmax output is exactly (0.1, 0.2, 0.3, 0.0)
and the sigmoid alpha is 0. -/
theorem all_invalid_pixel_background_witness :
    sigmoid_alpha_blend (fun _ _ _ _ _ => (0.9:ℝ))
        (Fragments.mk (fun _ _ _ _ => (-1:ℤ)) (fun _ _ _ _ => (4:ℝ))
          (fun _ _ _ _ => (6:ℝ)) : Fragments 1 1 1 1) 1e-4 0 (Fin.rev 0) 0 3
        = 0
    ∧ softmax_rgb_blend (fun _ _ _ _ _ => (0.9:ℝ))
        (Fragments.mk (fun _ _ _ _ => (-1:ℤ)) (fun _ _ _ _ => (4:ℝ))
          (fun _ _ _ _ => (6:ℝ)) : Fragments 1 1 1 1) 1e-4 1e-4
        (fun c => if (c : ℕ) = 0 then (0.1:ℝ) else
          if (c : ℕ) = 1 then 0.2 else 0.3) 0 (Fin.rev 0) 0 0 = 0.1
    ∧ softmax_rgb_blend (fun _ _ _ _ _ => (0.9:ℝ))
        (Fragments.mk (fun _ _ _ _ => (-1:ℤ)) (fun _ _ _ _ => (4:ℝ))
          (fun _ _ _ _ => (6:ℝ)) : Fragments 1 1 1 1) 1e-4 1e-4
        (fun c => if (c : ℕ) = 0 then (0.1:ℝ) else
          if (c : ℕ) = 1 then 0.2 else 0.3) 0 (Fin.rev 0) 0 1 = 0.2
    ∧ softmax_rgb_blend (fun _ _ _ _ _ => (0.9:ℝ))
        (Fragments.mk (fun _ _ _ _ => (-1:ℤ)) (fun _ _ _ _ => (4:ℝ))
          (fun _ _ _ _ => (6:ℝ)) : Fragments 1 1 1 1) 1e-4 1e-4
        (fun c => if (c : ℕ) = 0 then (0.1:ℝ) else
          if (c : ℕ) = 1 then 0.2 else 0.3) 0 (Fin.rev 0) 0 2 = 0.3
    ∧ softmax_rgb_blend (fun _ _ _ _ _ => (0.9:ℝ))
        (Fragments.mk (fun _ _ _ _ => (-1:ℤ)) (fun _ _ _ _ => (4:ℝ))
          (fun _ _ _ _ => (6:ℝ)) : Fragments 1 1 1 1) 1e-4 1e-4
        (fun c => if (c : ℕ) = 0 then (0.1:ℝ) else
          if (c : ℕ) = 1 then 0.2 else 0.3) 0 (Fin.rev 0) 0 3 = 0 := by
  obtain ⟨h1, h2, h3, h4, h5⟩ := all_invalid_pixel_background
    (fun _ _ _ _ _ => (0.9:ℝ))
    (Fragments.mk (fun _ _ _ _ => (-1:ℤ)) (fun _ _ _ _ => (4:ℝ))
      (fun _ _ _ _ => (6:ℝ)) : Fragments 1 1 1 1) 1e-4 1e-4
    (fun c => if (c : ℕ) = 0 then (0.1:ℝ) else
      if (c : ℕ) = 1 then 0.2 else 0.3) 0 0 0
    (fun k => show (-1:ℤ) < 0 by decide)
  refine ⟨h1, ?_, ?_, ?_, h5⟩
  · rw [h2]
    exact clamp01_of_mem (by norm_num) (by norm_num)
  · rw [h3]
    exact clamp01_of_mem (by norm_num) (by norm_num)
  · rw [h4]
    exact clamp01_of_mem (by norm_num) (by norm_num)

/-- Claim C8: for the per-pixel alpha estimator shared by
`sigmoid_alpha_blend` and `softmax_rgb_blend`, with positive sigma,
decreasing the distance of one valid slot (face index at least 0) while
all other distances stay fixed never decreases alpha. -/
theorem alpha_monotone_in_dists {K : ℕ} (sigma : ℝ) (hs : 0 < sigma)
    (pix_to_face : Fin (K+1) → ℤ) (dists dists' : Fin (K+1) → ℝ)
    (k0 : Fin (K+1)) (hvalid : 0 ≤ pix_to_face k0)
    (hdec : dists' k0 ≤ dists k0)
    (hother : ∀ k, k ≠ k0 → dists' k = dists k) :
    alpha sigma pix_to_face dists ≤ alpha sigma pix_to_face dists' := by
  rw [alpha_eq_one_sub_prod, alpha_eq_one_sub_prod]
  have hle : ∏ k, (1 - prob_map sigma pix_to_face dists' k) ≤
      ∏ k, (1 - prob_map sigma pix_to_face dists k) := by
    apply Finset.prod_le_prod
    · intro k _
      linarith [prob_map_lt_one sigma pix_to_face dists' k]
    · intro k _
      by_cases hk : k = k0
      · subst hk
        have hp : prob_map sigma pix_to_face dists k ≤
            prob_map sigma pix_to_face dists' k := by
          unfold prob_map
          rw [maskVal_of_nonneg hvalid, mul_one, mul_one]
          apply sigmoid_le_sigmoid
          rw [div_le_div_iff₀ hs hs]
          nlinarith [mul_nonneg (sub_nonneg.mpr hdec) hs.le]
        linarith
      · have hp : prob_map sigma pix_to_face dists' k =
            prob_map sigma pix_to_face dists k := by
          unfold prob_map
          rw [hother k hk]
        rw [hp]
  linarith

/-- Claim C8 witness: one valid slot with sigma 1; moving its distance from
0 down to -1 satisfies the hypotheses, so alpha does not decrease. -/
theorem alpha_monotone_in_dists_witness :
    (0:ℝ) < 1 ∧ (0:ℤ) ≤ 0 ∧ (-1:ℝ) ≤ 0
    ∧ alpha 1 (fun _ : Fin 1 => (0:ℤ)) (fun _ => (0:ℝ)) ≤
        alpha 1 (fun _ : Fin 1 => (0:ℤ)) (fun _ => (-1:ℝ)) := by
  refine ⟨one_pos, le_rfl, by norm_num, ?_⟩
  exact alpha_monotone_in_dists 1 one_pos (fun _ : Fin 1 => (0:ℤ))
    (fun _ => (0:ℝ)) (fun _ => (-1:ℝ)) 0 le_rfl (by norm_num)
    (fun k hk => absurd (have : Subsingleton (Fin (0+1)) := Fin.subsingleton_one
      Subsingleton.elim k 0) hk)

/-- Claim C10: the alpha channel of both `sigmoid_alpha_blend` and
`softmax_rgb_blend` depends only on `pix_to_face`, `dists` and `sigma`:
two invocations agreeing on those but differing arbitrarily in the colors,
`zbuf`, gamma and background color produce identical alpha channels. -/
theorem alpha_channel_independent {N H W K : ℕ}
    (colors colors' : Colors N H W K) (fr fr' : Fragments N H W K)
    (sigma gamma gamma' : ℝ) (background background' : Fin 3 → ℝ)
    (hp : fr.pix_to_face = fr'.pix_to_face) (hd : fr.dists = fr'.dists)
    (n : Fin N) (h : Fin H) (w : Fin W) :
    sigmoid_alpha_blend colors fr sigma n h w 3 =
      sigmoid_alpha_blend colors' fr' sigma n h w 3
    ∧ softmax_rgb_blend colors fr sigma gamma background n h w 3 =
        softmax_rgb_blend colors' fr' sigma gamma' background' n h w 3 := by
  have hc : ¬((3:Fin 4) : ℕ) < 3 := by decide
  constructor
  · unfold sigmoid_alpha_blend
    rw [dif_neg hc, dif_neg hc, hp, hd]
  · unfold softmax_rgb_blend
    rw [dif_neg hc, dif_neg hc, hp, hd]

/-- Claim C10 witness: two invocations sharing `pix_to_face`, `dists` and
sigma but with different colors, depths, gamma and background color give
the same alpha channel value at the pixel. -/
theorem alpha_channel_independent_witness :
    sigmoid_alpha_blend (fun _ _ _ _ _ => (0.2:ℝ))
        (Fragments.mk (fun _ _ _ _ => (0:ℤ)) (fun _ _ _ _ => (0:ℝ))
          (fun _ _ _ _ => (2:ℝ)) : Fragments 1 1 1 0) 1 0 0 0 3 =
      sigmoid_alpha_blend (fun _ _ _ _ _ => (0.8:ℝ))
        (Fragments.mk (fun _ _ _ _ => (0:ℤ)) (fun _ _ _ _ => (0:ℝ))
          (fun _ _ _ _ => (50:ℝ)) : Fragments 1 1 1 0) 1 0 0 0 3
    ∧ softmax_rgb_blend (fun _ _ _ _ _ => (0.2:ℝ))
        (Fragments.mk (fun _ _ _ _ => (0:ℤ)) (fun _ _ _ _ => (0:ℝ))
          (fun _ _ _ _ => (2:ℝ)) : Fragments 1 1 1 0) 1 1 (fun _ => 0)
          0 0 0 3 =
      softmax_rgb_blend (fun _ _ _ _ _ => (0.8:ℝ))
        (Fragments.mk (fun _ _ _ _ => (0:ℤ)) (fun _ _ _ _ => (0:ℝ))
          (fun _ _ _ _ => (50:ℝ)) : Fragments 1 1 1 0) 1 2 (fun _ => 1)
          0 0 0 3 :=
  alpha_channel_independent (fun _ _ _ _ _ => (0.2:ℝ))
    (fun _ _ _ _ _ => (0.8:ℝ))
    (Fragments.mk (fun _ _ _ _ => (0:ℤ)) (fun _ _ _ _ => (0:ℝ))
      (fun _ _ _ _ => (2:ℝ)) : Fragments 1 1 1 0)
    (Fragments.mk (fun _ _ _ _ => (0:ℤ)) (fun _ _ _ _ => (0:ℝ))
      (fun _ _ _ _ => (50:ℝ)) : Fragments 1 1 1 0)
    1 1 2 (fun _ => 0) (fun _ => 1) rfl rfl 0 0 0

/-- Claim C2 (counterexample): `hard_rgb_blend` applies no clamp, so an
input color outside [0,1] appears unchanged in the output: with every
color 2, the output red channel is 2, which exceeds 1. -/
theorem hard_rgb_blend_exceeds_range :
    (1:ℝ) < hard_rgb_blend (fun _ _ _ _ _ => (2:ℝ))
      (Fragments.mk (fun _ _ _ _ => (0:ℤ)) (fun _ _ _ _ => (0:ℝ))
        (fun _ _ _ _ => (0:ℝ)) : Fragments 1 1 1 0) 0 0 0 0 := by
  show (1:ℝ) < 2
  norm_num

/-- Claim C2 (amended): every output channel of `sigmoid_alpha_blend` and
`softmax_rgb_blend` lies in [0,1] for all inputs, the clamp being each
variant's final elementwise step before the row flip; `hard_rgb_blend`
applies no clamp, and its channels lie in [0,1] provided the input colors
do. -/
theorem output_channels_in_range {N H W K : ℕ} (colors : Colors N H W K)
    (fr : Fragments N H W K) (sigma gamma : ℝ) (background : Fin 3 → ℝ)
    (n : Fin N) (h : Fin H) (w : Fin W) (c : Fin 4) :
    (0 ≤ sigmoid_alpha_blend colors fr sigma n h w c
      ∧ sigmoid_alpha_blend colors fr sigma n h w c ≤ 1)
    ∧ (0 ≤ softmax_rgb_blend colors fr sigma gamma background n h w c
      ∧ softmax_rgb_blend colors fr sigma gamma background n h w c ≤ 1)
    ∧ ((∀ n' h' w' k c', 0 ≤ colors n' h' w' k c'
          ∧ colors n' h' w' k c' ≤ 1) →
        0 ≤ hard_rgb_blend colors fr n h w c
        ∧ hard_rgb_blend colors fr n h w c ≤ 1) := by
  refine ⟨⟨clamp01_nonneg _, clamp01_le_one _⟩,
    ⟨clamp01_nonneg _, clamp01_le_one _⟩, fun hcol => ?_⟩
  constructor
  · unfold hard_rgb_blend
    split
    · exact (hcol n (Fin.rev h) w 0 _).1
    · norm_num
  · unfold hard_rgb_blend
    split
    · exact (hcol n (Fin.rev h) w 0 _).2
    · norm_num

/-- Claim C2 witness: a concrete instance with all colors one half; all
three outputs lie in [0,1] at the chosen pixel and channel. -/
theorem output_channels_in_range_witness :
    ((0:ℝ) ≤ sigmoid_alpha_blend (fun _ _ _ _ _ => (0.5:ℝ))
        (Fragments.mk (fun _ _ _ _ => (0:ℤ)) (fun _ _ _ _ => (0:ℝ))
          (fun _ _ _ _ => (2:ℝ)) : Fragments 1 1 1 0) 1 0 0 0 0
      ∧ sigmoid_alpha_blend (fun _ _ _ _ _ => (0.5:ℝ))
        (Fragments.mk (fun _ _ _ _ => (0:ℤ)) (fun _ _ _ _ => (0:ℝ))
          (fun _ _ _ _ => (2:ℝ)) : Fragments 1 1 1 0) 1 0 0 0 0 ≤ 1)
    ∧ ((0:ℝ) ≤ softmax_rgb_blend (fun _ _ _ _ _ => (0.5:ℝ))
        (Fragments.mk (fun _ _ _ _ => (0:ℤ)) (fun _ _ _ _ => (0:ℝ))
          (fun _ _ _ _ => (2:ℝ)) : Fragments 1 1 1 0) 1 1 (fun _ => 0.5)
          0 0 0 0
      ∧ softmax_rgb_blend (fun _ _ _ _ _ => (0.5:ℝ))
        (Fragments.mk (fun _ _ _ _ => (0:ℤ)) (fun _ _ _ _ => (0:ℝ))
          (fun _ _ _ _ => (2:ℝ)) : Fragments 1 1 1 0) 1 1 (fun _ => 0.5)
          0 0 0 0 ≤ 1)
    ∧ ((0:ℝ) ≤ hard_rgb_blend (fun _ _ _ _ _ => (0.5:ℝ))
        (Fragments.mk (fun _ _ _ _ => (0:ℤ)) (fun _ _ _ _ => (0:ℝ))
          (fun _ _ _ _ => (2:ℝ)) : Fragments 1 1 1 0) 0 0 0 0
      ∧ hard_rgb_blend (fun _ _ _ _ _ => (0.5:ℝ))
        (Fragments.mk (fun _ _ _ _ => (0:ℤ)) (fun _ _ _ _ => (0:ℝ))
          (fun _ _ _ _ => (2:ℝ)) : Fragments 1 1 1 0) 0 0 0 0 ≤ 1) := by
  obtain ⟨h1, h2, h3⟩ := output_channels_in_range
    (fun _ _ _ _ _ => (0.5:ℝ))
    (Fragments.mk (fun _ _ _ _ => (0:ℤ)) (fun _ _ _ _ => (0:ℝ))
      (fun _ _ _ _ => (2:ℝ)) : Fragments 1 1 1 0)
    1 1 (fun _ => 0.5) 0 0 0 0
  exact ⟨h1, h2, h3 fun n' h' w' k c' =>
    ⟨show (0:ℝ) ≤ 0.5 by norm_num, show (0.5:ℝ) ≤ 1 by norm_num⟩⟩

end Blending
